import Mathlib

set_option maxRecDepth 100000

/-!
# Verification of a BN254 scalar-field and curve-point library

This file embeds, in Lean 4, the two Rust source files of the
`bn254-crypto-rust` repository:

* `src/fp.rs` — a prime-field element `Fp` holding an arbitrary-precision
  non-negative integer (`BigUint`), with operations `new`, `zero`, `one`,
  `inv` (extended Euclidean algorithm), `pow`, and the operator
  implementations `add`, `sub`, `mul`, `neg`;
* `src/g1.rs` — a curve point `G1` in Jacobian coordinates with
  `infinity`, `is_infinity`, `to_affine`, `is_on_curve`, `double`, `add`
  and `mul_u128`.

Modelling conventions:

* Rust `BigUint` values are `Nat`, `BigInt` values are `Int`.
* Rust panics are explicit failure values: `panic!` inside `Fp::inv` and
  the two arithmetic panics that `inv` can hit (`BigInt` division by zero
  when the Euclidean loop's divisor reaches zero, and
  `to_biguint().unwrap()` on a negative result) become `Except.error`
  with a dedicated error constructor; `BigUint` subtraction, which panics
  on underflow, becomes `Option`-valued (`bigSub`), and the operations
  built from it (`Fp.sub`, `Fp.neg`, and all `G1` operations that
  subtract) are `Option`-valued.
* Everything else is translated operation-for-operation from the source.
-/

/-- The prime modulus `P` from `src/fp.rs` (the `lazy_static` constant). -/
def P : Nat := 21888242871839275222246405745257275088548364400416034343698204186575808495617

/-- Field element: mirrors `pub struct Fp { pub n: BigUint }`. -/
structure Fp where
  n : Nat
deriving DecidableEq, Repr

namespace Fp

/-- `Fp::new`: reduce the argument modulo `P`. -/
def new (n : Nat) : Fp := ⟨n % P⟩

/-- `Fp::zero`. -/
def zero : Fp := ⟨0⟩

/-- `Fp::one`. -/
def one : Fp := ⟨1⟩

/-- `impl Add for Fp`: `Fp::new(self.n + rhs.n)`. -/
def add (a b : Fp) : Fp := new (a.n + b.n)

/-- `impl Mul for Fp`: `Fp::new(self.n * rhs.n)`. -/
def mul (a b : Fp) : Fp := new (a.n * b.n)

/-- `BigUint` subtraction: defined only when no underflow occurs
(Rust panics on underflow). -/
def bigSub (x y : Nat) : Option Nat := if y ≤ x then some (x - y) else none

/-- `impl Sub for Fp`: if `self.n >= rhs.n` subtract directly, otherwise
add the modulus first; the result goes through `Fp::new`. -/
def sub (a b : Fp) : Option Fp :=
  (if b.n ≤ a.n then bigSub a.n b.n else bigSub (a.n + P) b.n).map new

/-- `impl Neg for Fp`: `zero` for `zero`, otherwise `Fp::new(P - self.n)`. -/
def neg (a : Fp) : Option Fp :=
  if a.n = 0 then some zero else (bigSub P a.n).map new

/-- `Fp::pow`: models `self.n.modpow(exp, &*P)` (the `num_bigint`
modular exponentiation, whose value is `self.n ^ exp mod P`), wrapped in
`Fp::new` as in the source. -/
def pow (a : Fp) (exp : Nat) : Fp := new (a.n ^ exp % P)

/-- The failure modes of `Fp::inv`, one per `panic!` site it can reach:
the explicit `panic!("Inverse does not exist for zero")`, the `BigInt`
division/remainder by zero when the loop divisor reaches `0`, and the
`to_biguint().unwrap()` on a negative `BigInt`. -/
inductive Error where
  | inversionOfZero : Error
  | divisionByZero : Error
  | negativeUnwrap : Error
deriving DecidableEq, Repr

/-- The `while a != 1` loop of `Fp::inv`: state `(a, m, x0, x1)`, one
iteration computes `q = a / m`, then `(a, m) ← (m, a % m)` and
`(x0, x1) ← (x1 - q * x0, x0)`.  `a` and `m` are non-negative throughout
in the source (they start from `self.n` and `P`), so they are `Nat`
here; the Bézout coefficients are `Int`.  Returns `none` when the loop
would divide by zero (`m = 0` with `a ≠ 1`). -/
def invLoop (a m : Nat) (x0 x1 : Int) : Option Int :=
  if a = 1 then some x1
  else if hm : m = 0 then none
  else invLoop m (a % m) (x1 - (a / m : Nat) * x0) x0
termination_by a + 2 * m
decreasing_by
  have h1 : a % m < m := Nat.mod_lt _ (Nat.pos_of_ne_zero hm)
  have h2 : a % m ≤ a := Nat.mod_le _ _
  have h3 : a < m → a % m = a := Nat.mod_eq_of_lt
  omega

/-- `Fp::inv`: panic on zero, run the extended Euclidean loop on
`(self.n, P)` with Bézout coefficients `(0, 1)`, add `P` to the result
if it is negative, convert back to `BigUint` and reduce via `Fp::new`. -/
def inv (x : Fp) : Except Error Fp :=
  if x.n = 0 then .error .inversionOfZero
  else
    match invLoop x.n P 0 1 with
    | none => .error .divisionByZero
    | some x1 =>
      let y : Int := if x1 < 0 then x1 + (P : Int) else x1
      if y < 0 then .error .negativeUnwrap
      else .ok (new y.toNat)

end Fp

/-- Binary modular exponentiation with explicit fuel, used to evaluate
large modular powers inside the kernel when certifying the primality of
`P`. -/
def powModAux : Nat → Nat → Nat → Nat → Nat
  | 0, _, _, m => 1 % m
  | fuel+1, b, e, m =>
    if e = 0 then 1 % m
    else
      let r := powModAux fuel b (e / 2) m
      if e % 2 = 1 then r * r % m * b % m else r * r % m

theorem powModAux_correct (fuel b e m : Nat) (hm : 0 < m) (he : e < 2 ^ fuel) :
    powModAux fuel b e m = b ^ e % m := by
  induction fuel generalizing e with
  | zero =>
    interval_cases e
    simp [powModAux]
  | succ fuel ih =>
    rw [powModAux]
    by_cases h0 : e = 0
    · simp [h0]
    · have hlt : e / 2 < 2 ^ fuel := by
        have := Nat.pow_succ 2 fuel
        omega
      rw [if_neg h0, ih _ hlt]
      have hsplit : e = e / 2 + e / 2 + e % 2 := by omega
      by_cases h2 : e % 2 = 1
      · rw [if_pos h2]
        conv_rhs => rw [hsplit, h2]
        rw [pow_add, pow_add, pow_one]
        conv_lhs => rw [Nat.mul_mod]
        conv_rhs => rw [Nat.mul_mod, Nat.mul_mod (b ^ (e/2))]
        simp [Nat.mod_mod_of_dvd]
      · have h2' : e % 2 = 0 := by omega
        rw [if_neg h2]
        conv_rhs => rw [hsplit, h2']
        rw [Nat.add_zero, pow_add, Nat.mul_mod]
        simp [Nat.mod_mod_of_dvd]

/-! ## Primality of the modulus

`P` is the (prime) scalar-field modulus of the BN254 curve.  We certify
its primality inside Lean with Lucas certificates: a witness element of
multiplicative order `p - 1` for each large prime in the certificate
tree, with the modular powers evaluated by the kernel via `powModAux`. -/

theorem zmod_pow_eq_one_of_powModAux {p a fuel e : Nat} (hp : 1 < p) (he : e < 2 ^ fuel)
    (h : powModAux fuel a e p = 1) : (a : ZMod p) ^ e = 1 := by
  rw [powModAux_correct fuel a e p (by omega) he] at h
  calc (a : ZMod p) ^ e = ((a ^ e : Nat) : ZMod p) := by push_cast; ring
    _ = ((a ^ e % p : Nat) : ZMod p) := (ZMod.natCast_mod _ _).symm
    _ = ((1 : Nat) : ZMod p) := by rw [h]
    _ = 1 := Nat.cast_one

theorem zmod_pow_ne_one_of_powModAux {p a fuel e : Nat} (hp : 1 < p) (he : e < 2 ^ fuel)
    (h : powModAux fuel a e p ≠ 1) : (a : ZMod p) ^ e ≠ 1 := by
  rw [powModAux_correct fuel a e p (by omega) he] at h
  intro hcon
  apply h
  haveI : NeZero p := ⟨by omega⟩
  haveI : Fact (1 < p) := ⟨hp⟩
  have hcast : ((a ^ e % p : Nat) : ZMod p) = 1 := by
    rw [ZMod.natCast_mod]
    push_cast
    exact hcon
  have hval := congrArg ZMod.val hcast
  rwa [ZMod.val_cast_of_lt (Nat.mod_lt _ (by omega)), ZMod.val_one] at hval

theorem lucas_cert (p a fuel : Nat) (qs : List Nat) (hp : 1 < p)
    (hfuel : p - 1 < 2 ^ fuel)
    (hferm : powModAux fuel a (p - 1) p = 1)
    (hcover : ∀ q : Nat, q.Prime → q ∣ p - 1 → q ∈ qs)
    (hq : ∀ q ∈ qs, powModAux fuel a ((p - 1) / q) p ≠ 1) : p.Prime :=
  lucas_primality p (a : ZMod p)
    (zmod_pow_eq_one_of_powModAux hp hfuel hferm)
    (fun q hqp hdvd =>
      zmod_pow_ne_one_of_powModAux hp
        (lt_of_le_of_lt (Nat.div_le_self _ _) hfuel)
        (hq q (hcover q hqp hdvd)))

theorem prime_eq_of_dvd_prime {q r : Nat} (hq : q.Prime) (hr : r.Prime) (h : q ∣ r) : q = r :=
  (Nat.prime_dvd_prime_iff_eq hq hr).mp h

theorem prime_eq_of_dvd_prime_pow {q r k : Nat} (hq : q.Prime) (hr : r.Prime)
    (h : q ∣ r ^ k) : q = r :=
  prime_eq_of_dvd_prime hq hr (hq.dvd_of_dvd_pow h)

/-- `12048837557` is prime (Lucas certificate, generator 2). -/
theorem prime_12048837557 : Nat.Prime 12048837557 := by
  apply lucas_cert 12048837557 2 34 [2, 7, 661, 93001] (by norm_num) (by norm_num)
  · decide
  · intro q hq hd
    have he : (12048837557 - 1 : Nat) = 2 ^ 2 * 7 ^ 2 * 661 ^ 1 * 93001 ^ 1 := by norm_num
    rw [he] at hd
    simp only [hq.dvd_mul] at hd
    rcases hd with ((h | h) | h) | h <;>
      simp [prime_eq_of_dvd_prime_pow hq (by norm_num) h]
  · intro q hqmem
    fin_cases hqmem <;> decide

/-- `5156902474397` is prime (Lucas certificate, generator 2). -/
theorem prime_5156902474397 : Nat.Prime 5156902474397 := by
  apply lucas_cert 5156902474397 2 43 [2, 107, 12048837557] (by norm_num) (by norm_num)
  · decide
  · intro q hq hd
    have he : (5156902474397 - 1 : Nat) = 2 ^ 2 * 107 ^ 1 * 12048837557 ^ 1 := by norm_num
    rw [he] at hd
    simp only [hq.dvd_mul] at hd
    rcases hd with (h | h) | h <;>
      first
        | simp [prime_eq_of_dvd_prime_pow hq prime_12048837557 h]
        | simp [prime_eq_of_dvd_prime_pow hq (by norm_num) h]
  · intro q hqmem
    fin_cases hqmem <;> decide

/-- `1670836401704629` is prime (Lucas certificate, generator 2). -/
theorem prime_1670836401704629 : Nat.Prime 1670836401704629 := by
  apply lucas_cert 1670836401704629 2 51 [2, 3, 5156902474397] (by norm_num) (by norm_num)
  · decide
  · intro q hq hd
    have he : (1670836401704629 - 1 : Nat) = 2 ^ 2 * 3 ^ 4 * 5156902474397 ^ 1 := by norm_num
    rw [he] at hd
    simp only [hq.dvd_mul] at hd
    rcases hd with (h | h) | h <;>
      first
        | simp [prime_eq_of_dvd_prime_pow hq prime_5156902474397 h]
        | simp [prime_eq_of_dvd_prime_pow hq (by norm_num) h]
  · intro q hqmem
    fin_cases hqmem <;> decide

/-- `639533339` is prime (Lucas certificate, generator 2). -/
theorem prime_639533339 : Nat.Prime 639533339 := by
  apply lucas_cert 639533339 2 30 [2, 229, 853, 1637] (by norm_num) (by norm_num)
  · decide
  · intro q hq hd
    have he : (639533339 - 1 : Nat) = 2 ^ 1 * 229 ^ 1 * 853 ^ 1 * 1637 ^ 1 := by norm_num
    rw [he] at hd
    simp only [hq.dvd_mul] at hd
    rcases hd with ((h | h) | h) | h <;>
      simp [prime_eq_of_dvd_prime_pow hq (by norm_num) h]
  · intro q hqmem
    fin_cases hqmem <;> decide

/-- `65865678001877903` is prime (Lucas certificate, generator 5). -/
theorem prime_65865678001877903 : Nat.Prime 65865678001877903 := by
  apply lucas_cert 65865678001877903 5 56 [2, 83, 379, 1637, 639533339] (by norm_num) (by norm_num)
  · decide
  · intro q hq hd
    have he : (65865678001877903 - 1 : Nat) =
        2 ^ 1 * 83 ^ 1 * 379 ^ 1 * 1637 ^ 1 * 639533339 ^ 1 := by norm_num
    rw [he] at hd
    simp only [hq.dvd_mul] at hd
    rcases hd with (((h | h) | h) | h) | h <;>
      first
        | simp [prime_eq_of_dvd_prime_pow hq prime_639533339 h]
        | simp [prime_eq_of_dvd_prime_pow hq (by norm_num) h]
  · intro q hqmem
    fin_cases hqmem <;> decide

/-- `13818364434197438864469338081` is prime (Lucas certificate, generator 3). -/
theorem prime_13818364434197438864469338081 : Nat.Prime 13818364434197438864469338081 := by
  apply lucas_cert 13818364434197438864469338081 3 94
    [2, 5, 823, 1593227, 65865678001877903] (by norm_num) (by norm_num)
  · decide
  · intro q hq hd
    have he : (13818364434197438864469338081 - 1 : Nat) =
        2 ^ 5 * 5 ^ 1 * 823 ^ 1 * 1593227 ^ 1 * 65865678001877903 ^ 1 := by norm_num
    rw [he] at hd
    simp only [hq.dvd_mul] at hd
    rcases hd with (((h | h) | h) | h) | h <;>
      first
        | simp [prime_eq_of_dvd_prime_pow hq prime_65865678001877903 h]
        | simp [prime_eq_of_dvd_prime_pow hq (by norm_num) h]
  · intro q hqmem
    fin_cases hqmem <;> decide

/-- `405928799` is prime (Lucas certificate, generator 22). -/
theorem prime_405928799 : Nat.Prime 405928799 := by
  apply lucas_cert 405928799 22 29 [2, 11, 3691, 4999] (by norm_num) (by norm_num)
  · decide
  · intro q hq hd
    have he : (405928799 - 1 : Nat) = 2 ^ 1 * 11 ^ 1 * 3691 ^ 1 * 4999 ^ 1 := by norm_num
    rw [he] at hd
    simp only [hq.dvd_mul] at hd
    rcases hd with ((h | h) | h) | h <;>
      simp [prime_eq_of_dvd_prime_pow hq (by norm_num) h]
  · intro q hqmem
    fin_cases hqmem <;> decide

/-- The modulus `P` is prime (Lucas certificate, generator 5). -/
theorem P_prime : Nat.Prime P := by
  apply lucas_cert P 5 254
    [2, 3, 13, 29, 983, 11003, 237073, 405928799, 1670836401704629,
      13818364434197438864469338081] (by decide) (by decide)
  · decide
  · intro q hq hd
    have he : (P - 1 : Nat) =
        2 ^ 28 * 3 ^ 2 * 13 ^ 1 * 29 ^ 1 * 983 ^ 1 * 11003 ^ 1 * 237073 ^ 1 *
          405928799 ^ 1 * 1670836401704629 ^ 1 * 13818364434197438864469338081 ^ 1 := by decide
    rw [he] at hd
    simp only [hq.dvd_mul] at hd
    rcases hd with ((((((((h | h) | h) | h) | h) | h) | h) | h) | h) | h <;>
      first
        | simp [prime_eq_of_dvd_prime_pow hq prime_405928799 h]
        | simp [prime_eq_of_dvd_prime_pow hq prime_1670836401704629 h]
        | simp [prime_eq_of_dvd_prime_pow hq prime_13818364434197438864469338081 h]
        | simp [prime_eq_of_dvd_prime_pow hq (by norm_num) h]
  · intro q hqmem
    fin_cases hqmem <;> decide

instance : Fact (Nat.Prime P) := ⟨P_prime⟩

/-! ## The curve point type `G1` from `src/g1.rs` -/

/-- Jacobian-coordinate curve point: `pub struct G1 { x: Fp, y: Fp, z: Fp }`. -/
structure G1 where
  x : Fp
  y : Fp
  z : Fp
deriving DecidableEq, Repr

namespace G1

/-- `G1::infinity`: the canonical identity `(0, 1, 0)`. -/
def infinity : G1 := ⟨Fp.zero, Fp.one, Fp.zero⟩

/-- `G1::is_infinity`: `self.z.n.is_zero()`. -/
def is_infinity (p : G1) : Bool := p.z.n == 0

/-- `G1::to_affine`: `(0, 0)` sentinel at infinity, otherwise
`(x·zInv², y·zInv³)` with `zInv = z.inv()` (which can panic, hence
`Except`). -/
def to_affine (p : G1) : Except Fp.Error (Fp × Fp) :=
  if p.is_infinity then .ok (Fp.zero, Fp.zero)
  else do
    let zInv ← p.z.inv
    let z2 := zInv.mul zInv
    let z3 := z2.mul zInv
    .ok (p.x.mul z2, p.y.mul z3)

/-- `G1::is_on_curve`: infinity counts as on-curve; otherwise check
`y*y == x*x*x + Fp::new(3)` on the affine coordinates. -/
def is_on_curve (p : G1) : Except Fp.Error Bool :=
  if p.is_infinity then .ok true
  else do
    let xy ← p.to_affine
    .ok (decide (xy.2.mul xy.2 = ((xy.1.mul xy.1).mul xy.1).add (Fp.new 3)))

/-- `G1::double`, translated subtraction-for-subtraction (each `-` on
field elements can panic on `BigUint` underflow, hence `Option`): the
running formula subtracts `yyyy` from `m*(s - x3)` four times. -/
def double (p : G1) : Option G1 :=
  if p.is_infinity then some p
  else
    let xx := p.x.mul p.x
    let yy := p.y.mul p.y
    let yyyy := yy.mul yy
    do
      let sa ← Fp.sub ((p.x.add yy).mul (p.x.add yy)) xx
      let sb ← Fp.sub sa yyyy
      let sc ← Fp.sub ((p.x.add yy).mul (p.x.add yy)) xx
      let sd ← Fp.sub sc yyyy
      let s := sb.add sd
      let m := (xx.add xx).add xx
      let x3a ← Fp.sub (m.mul m) s
      let x3 ← Fp.sub x3a s
      let y3a ← Fp.sub s x3
      let y3b ← Fp.sub (m.mul y3a) yyyy
      let y3c ← Fp.sub y3b yyyy
      let y3d ← Fp.sub y3c yyyy
      let y3 ← Fp.sub y3d yyyy
      let z3 := (p.y.mul p.z).add (p.y.mul p.z)
      some ⟨x3, y3, z3⟩

/-- `G1::add`, translated branch-for-branch. -/
def add (p other : G1) : Option G1 :=
  if p.is_infinity then some other
  else if other.is_infinity then some p
  else
    let z1z1 := p.z.mul p.z
    let z2z2 := other.z.mul other.z
    let u1 := p.x.mul z2z2
    let u2 := other.x.mul z1z1
    let s1 := (p.y.mul z2z2).mul other.z
    let s2 := (other.y.mul z1z1).mul p.z
    if u1 = u2 then
      if s1 = s2 then p.double else some infinity
    else do
      let h ← Fp.sub u2 u1
      let i := (h.add h).mul (h.add h)
      let j := h.mul i
      let ra ← Fp.sub s2 s1
      let rb ← Fp.sub s2 s1
      let r := ra.add rb
      let v := u1.mul i
      let x3a ← Fp.sub (r.mul r) j
      let x3b ← Fp.sub x3a v
      let x3 ← Fp.sub x3b v
      let y3a ← Fp.sub v x3
      let y3b ← Fp.sub (r.mul y3a) (s1.mul j)
      let y3 ← Fp.sub y3b (s1.mul j)
      let z3a ← Fp.sub ((p.z.add other.z).mul (p.z.add other.z)) z1z1
      let z3b ← Fp.sub z3a z2z2
      let z3 := z3b.mul h
      some ⟨x3, y3, z3⟩

/-- The `while scalar > 0` loop of `G1::mul_u128`: conditionally add
`base` into `res`, double `base`, shift the scalar right. -/
def mulLoop (res base : G1) (scalar : Nat) : Option G1 :=
  if scalar = 0 then some res
  else
    match (if scalar % 2 = 1 then res.add base else some res) with
    | none => none
    | some res2 =>
      match base.double with
      | none => none
      | some base2 => mulLoop res2 base2 (scalar / 2)
termination_by scalar
decreasing_by
  exact Nat.div_lt_self (Nat.pos_of_ne_zero (by assumption)) (by omega)

/-- `G1::mul_u128`: double-and-add from `res = infinity`, `base = self`.
The scalar is a Rust `u128`; its value is modelled as a `Nat` (the
claims constrain it below `2^128` where that matters). -/
def mul_u128 (p : G1) (scalar : Nat) : Option G1 := mulLoop infinity p scalar

end G1

/-! ## Mapping field elements to `ZMod P` -/

namespace Fp

/-- The residue class denoted by a field element. -/
def toZMod (a : Fp) : ZMod P := (a.n : ZMod P)

theorem P_pos : 0 < P := by decide

@[simp] theorem new_lt (n : Nat) : (new n).n < P := Nat.mod_lt _ P_pos

theorem new_n (t : Nat) : (new t).n = t % P := rfl

@[simp] theorem toZMod_new (n : Nat) : (new n).toZMod = (n : ZMod P) :=
  ZMod.natCast_mod n P

@[simp] theorem toZMod_zero : zero.toZMod = 0 := by simp [zero, toZMod]

@[simp] theorem toZMod_one : one.toZMod = 1 := by simp [one, toZMod]

@[simp] theorem toZMod_add (a b : Fp) : (add a b).toZMod = a.toZMod + b.toZMod := by
  simp [add, toZMod, new, ZMod.natCast_mod]

@[simp] theorem toZMod_mul (a b : Fp) : (mul a b).toZMod = a.toZMod * b.toZMod := by
  simp [mul, toZMod, new, ZMod.natCast_mod]

@[simp] theorem toZMod_pow (a : Fp) (e : Nat) : (pow a e).toZMod = a.toZMod ^ e := by
  simp [pow, toZMod, new, ZMod.natCast_mod]

/-- The value `sub` produces when its `BigUint` subtraction does not
underflow. -/
def subT (a b : Fp) : Fp := new (if b.n ≤ a.n then a.n - b.n else a.n + P - b.n)

/-- With a reduced subtrahend, `sub` never underflows. -/
theorem sub_eq (a b : Fp) (hb : b.n < P) : sub a b = some (subT a b) := by
  unfold sub subT bigSub
  by_cases h : b.n ≤ a.n
  · simp [h]
  · have h2 : b.n ≤ a.n + P := by omega
    simp [h, h2]

@[simp] theorem toZMod_subT (a b : Fp) (hb : b.n < P) :
    (subT a b).toZMod = a.toZMod - b.toZMod := by
  unfold subT
  by_cases h : b.n ≤ a.n
  · rw [if_pos h]
    unfold toZMod
    rw [new_n, ZMod.natCast_mod, Nat.cast_sub h]
  · have h2 : b.n ≤ a.n + P := by omega
    rw [if_neg h]
    unfold toZMod
    rw [new_n, ZMod.natCast_mod, Nat.cast_sub h2, Nat.cast_add, ZMod.natCast_self]
    ring

/-- The value `neg` produces when its `BigUint` subtraction does not
underflow. -/
def negT (a : Fp) : Fp := if a.n = 0 then zero else new (P - a.n)

/-- With a reduced argument, `neg` never underflows. -/
theorem neg_eq (a : Fp) (ha : a.n < P) : neg a = some (negT a) := by
  unfold neg negT bigSub
  by_cases h : a.n = 0
  · simp [h]
  · have h2 : a.n ≤ P := by omega
    simp [h, h2]

@[simp] theorem toZMod_negT (a : Fp) (ha : a.n < P) : (negT a).toZMod = -a.toZMod := by
  unfold negT
  by_cases h : a.n = 0
  · simp [h, toZMod, zero]
  · have h2 : a.n ≤ P := by omega
    rw [if_neg h]
    unfold toZMod
    rw [new_n, ZMod.natCast_mod, Nat.cast_sub h2, ZMod.natCast_self]
    ring

theorem eq_of_toZMod_eq {a b : Fp} (ha : a.n < P) (hb : b.n < P)
    (h : a.toZMod = b.toZMod) : a = b := by
  have := congrArg ZMod.val h
  rw [toZMod, toZMod, ZMod.val_cast_of_lt ha, ZMod.val_cast_of_lt hb] at this
  cases a; cases b; simpa using this

theorem toZMod_eq_zero_iff {a : Fp} (ha : a.n < P) : a.toZMod = 0 ↔ a.n = 0 := by
  rw [toZMod, ZMod.natCast_zmod_eq_zero_iff_dvd]
  constructor
  · intro h
    exact Nat.eq_zero_of_dvd_of_lt h ha
  · intro h
    rw [h]
    exact dvd_zero P

end Fp

namespace Fp

@[simp] theorem add_lt (a b : Fp) : (add a b).n < P := new_lt _
@[simp] theorem mul_lt (a b : Fp) : (mul a b).n < P := new_lt _
@[simp] theorem subT_lt (a b : Fp) : (subT a b).n < P := new_lt _
@[simp] theorem pow_lt (a : Fp) (e : Nat) : (pow a e).n < P := new_lt _
@[simp] theorem zero_n_lt : zero.n < P := P_pos
@[simp] theorem one_n_lt : one.n < P := by
  show 1 < P
  decide

end Fp

namespace G1

/-- The value `double` produces (its subtractions never underflow,
because every subtrahend is the reduced output of a field operation). -/
def doubleT (p : G1) : G1 :=
  if p.is_infinity then p
  else
    let xx := p.x.mul p.x
    let yy := p.y.mul p.y
    let yyyy := yy.mul yy
    let sa := Fp.subT ((p.x.add yy).mul (p.x.add yy)) xx
    let sb := Fp.subT sa yyyy
    let sc := Fp.subT ((p.x.add yy).mul (p.x.add yy)) xx
    let sd := Fp.subT sc yyyy
    let s := sb.add sd
    let m := (xx.add xx).add xx
    let x3a := Fp.subT (m.mul m) s
    let x3 := Fp.subT x3a s
    let y3a := Fp.subT s x3
    let y3b := Fp.subT (m.mul y3a) yyyy
    let y3c := Fp.subT y3b yyyy
    let y3d := Fp.subT y3c yyyy
    let y3 := Fp.subT y3d yyyy
    let z3 := (p.y.mul p.z).add (p.y.mul p.z)
    ⟨x3, y3, z3⟩

theorem double_eq (p : G1) : p.double = some p.doubleT := by
  unfold double doubleT
  by_cases h : p.is_infinity
  · simp [h]
  · simp only [h, if_false, Bool.false_eq_true]
    simp [Fp.sub_eq, Option.bind]

/-- The value `add` produces (its subtractions never underflow). -/
def addT (p other : G1) : G1 :=
  if p.is_infinity then other
  else if other.is_infinity then p
  else
    let z1z1 := p.z.mul p.z
    let z2z2 := other.z.mul other.z
    let u1 := p.x.mul z2z2
    let u2 := other.x.mul z1z1
    let s1 := (p.y.mul z2z2).mul other.z
    let s2 := (other.y.mul z1z1).mul p.z
    if u1 = u2 then
      if s1 = s2 then p.doubleT else infinity
    else
      let h := Fp.subT u2 u1
      let i := (h.add h).mul (h.add h)
      let j := h.mul i
      let ra := Fp.subT s2 s1
      let rb := Fp.subT s2 s1
      let r := ra.add rb
      let v := u1.mul i
      let x3a := Fp.subT (r.mul r) j
      let x3b := Fp.subT x3a v
      let x3 := Fp.subT x3b v
      let y3a := Fp.subT v x3
      let y3b := Fp.subT (r.mul y3a) (s1.mul j)
      let y3 := Fp.subT y3b (s1.mul j)
      let z3a := Fp.subT ((p.z.add other.z).mul (p.z.add other.z)) z1z1
      let z3b := Fp.subT z3a z2z2
      let z3 := z3b.mul h
      ⟨x3, y3, z3⟩

theorem add_eq (p other : G1) : p.add other = some (p.addT other) := by
  unfold add addT
  by_cases h1 : p.is_infinity
  · simp [h1]
  · by_cases h2 : other.is_infinity
    · simp [h1, h2]
    · simp only [h1, h2, if_false, Bool.false_eq_true]
      by_cases h3 : p.x.mul (other.z.mul other.z) = other.x.mul (p.z.mul p.z)
      · by_cases h4 :
          (p.y.mul (other.z.mul other.z)).mul other.z = (other.y.mul (p.z.mul p.z)).mul p.z
        · simp [h3, h4, double_eq]
        · simp [h3, h4]
      · simp [h3, Fp.sub_eq, Option.bind]

end G1

/-! ## Claim theorems -/

/-- C1: evaluating `invert` at the failing input `zero()`: execution
reaches the source's `panic!("Inverse does not exist for zero")` site
(modelled here by the `inversionOfZero` error value) and never returns a
value.  The code therefore fails by an uncontrolled abort, not by the
explicit, recoverable failure result the claim and spec §7 require —
spec §9 itself records that this panic must be re-architected into a
typed failure.  The spec is the intent; the panic in `Fp::inv` is the
code bug. -/
theorem C1_invert_zero_panics :
    Fp.inv Fp.zero = Except.error Fp.Error.inversionOfZero ∧
    ∀ r : Fp, Fp.inv Fp.zero ≠ Except.ok r := by
  constructor
  · rfl
  · intro r h
    simp [Fp.inv, Fp.zero] at h

/-- C9: for reduced operands, `sub` computes `(a − b) mod P`; the branch
taken always has minuend ≥ subtrahend (when `a.n < b.n` the modulus is
added first), so the unsigned subtraction never underflows and `sub`
returns a value. -/
theorem C9_sub_no_underflow (a b : Fp) (ha : a.n < P) (hb : b.n < P) :
    ∃ r : Fp, Fp.sub a b = some r ∧
      (r.n : Int) = ((a.n : Int) - (b.n : Int)) % (P : Int) ∧
      (b.n ≤ a.n ∨ (a.n < b.n ∧ b.n ≤ a.n + P)) := by
  refine ⟨Fp.subT a b, Fp.sub_eq a b hb, ?_, by omega⟩
  have hPpos : (0 : Int) < (P : Int) := by exact_mod_cast Fp.P_pos
  have haP : (a.n : Int) < (P : Int) := by exact_mod_cast ha
  have hbP : (b.n : Int) < (P : Int) := by exact_mod_cast hb
  unfold Fp.subT
  rw [Fp.new_n]
  by_cases h : b.n ≤ a.n
  · have hba : (b.n : Int) ≤ (a.n : Int) := by exact_mod_cast h
    rw [if_pos h, Nat.mod_eq_of_lt (by omega)]
    have hcast : ((a.n - b.n : Nat) : Int) = (a.n : Int) - b.n := by
      push_cast [h]
      ring
    rw [hcast, Int.emod_eq_of_lt (by omega) (by omega)]
  · have hab : (a.n : Int) < (b.n : Int) := by exact_mod_cast (by omega : a.n < b.n)
    rw [if_neg h, Nat.mod_eq_of_lt (by omega)]
    have hcast : ((a.n + P - b.n : Nat) : Int) = (a.n : Int) - b.n + P := by
      push_cast [show b.n ≤ a.n + P by omega]
      ring
    rw [hcast]
    have hmod : ((a.n : Int) - b.n) % (P : Int) = ((a.n : Int) - b.n + (P : Int) * 1) % (P : Int) :=
      (Int.add_mul_emod_self_left _ _ _).symm
    rw [hmod, mul_one, Int.emod_eq_of_lt (by omega) (by omega)]

/-- C9 witness: `sub` on the concrete reduced pair `(10, 15)`. -/
theorem C9_sub_no_underflow_witness :
    ∃ r : Fp, Fp.sub ⟨10⟩ ⟨15⟩ = some r ∧
      (r.n : Int) = (((10 : Nat) : Int) - ((15 : Nat) : Int)) % (P : Int) ∧
      ((15 : Nat) ≤ 10 ∨ (10 < 15 ∧ (15 : Nat) ≤ 10 + P)) :=
  C9_sub_no_underflow ⟨10⟩ ⟨15⟩ (by decide) (by decide)

/-- C4: every constructor and operation result is fully reduced into
`[0, P)`: `new`, `zero`, `one`, `add`, `mul`, `pow` unconditionally;
`sub` and `neg` succeed and produce reduced results on reduced operands;
any value `inv` returns is reduced. -/
theorem C4_reduction_invariant :
    (∀ t : Nat, (Fp.new t).n < P) ∧ Fp.zero.n < P ∧ Fp.one.n < P ∧
    (∀ a b : Fp, (Fp.add a b).n < P) ∧
    (∀ a b : Fp, a.n < P → b.n < P → ∃ r, Fp.sub a b = some r ∧ r.n < P) ∧
    (∀ a b : Fp, (Fp.mul a b).n < P) ∧
    (∀ a : Fp, a.n < P → ∃ r, Fp.neg a = some r ∧ r.n < P) ∧
    (∀ a r : Fp, Fp.inv a = Except.ok r → r.n < P) ∧
    (∀ (a : Fp) (e : Nat), (Fp.pow a e).n < P) := by
  refine ⟨Fp.new_lt, Fp.zero_n_lt, Fp.one_n_lt, fun a b => Fp.add_lt a b, ?_,
    fun a b => Fp.mul_lt a b, ?_, ?_, fun a e => Fp.pow_lt a e⟩
  · intro a b ha hb
    exact ⟨_, Fp.sub_eq a b hb, Fp.subT_lt a b⟩
  · intro a ha
    refine ⟨_, Fp.neg_eq a ha, ?_⟩
    unfold Fp.negT
    by_cases h : a.n = 0
    · rw [if_pos h]
      exact Fp.zero_n_lt
    · rw [if_neg h]
      exact Fp.new_lt _
  · intro a r h
    unfold Fp.inv at h
    by_cases h0 : a.n = 0
    · simp [h0] at h
    · simp only [h0, if_false] at h
      cases hL : Fp.invLoop a.n P 0 1 with
      | none => rw [hL] at h; cases h
      | some x1 =>
        rw [hL] at h
        simp only at h
        by_cases hy : (if x1 < 0 then x1 + (P : Int) else x1) < 0
        · rw [if_pos hy] at h; cases h
        · rw [if_neg hy] at h
          cases h
          exact Fp.new_lt _

/-- C4 witness: the operations evaluated at the concrete reduced pair
`(15, 10)`. -/
theorem C4_reduction_invariant_witness :
    ∃ r, Fp.sub ⟨15⟩ ⟨10⟩ = some r ∧ r.n < P :=
  C4_reduction_invariant.2.2.2.2.1 ⟨15⟩ ⟨10⟩ (by decide) (by decide)

/-- C10: doubling a non-infinity point whose Y coordinate is the zero
field element produces `Z3 = 2·Y1·Z1 = zero`, so the result is the
point at infinity (through the normal formula, not an error path). -/
theorem C10_double_order_two (p : G1)
    (hinf : p.is_infinity = false) (hy : p.y = Fp.zero) :
    ∃ d, p.double = some d ∧ d.z = Fp.zero ∧ d.is_infinity = true := by
  have hz3 : p.doubleT.z = Fp.zero := by
    unfold G1.doubleT
    rw [if_neg (by simp [hinf])]
    show (p.y.mul p.z).add (p.y.mul p.z) = Fp.zero
    rw [hy]
    show Fp.new ((Fp.new (Fp.zero.n * p.z.n)).n + (Fp.new (Fp.zero.n * p.z.n)).n) = Fp.zero
    simp [Fp.new, Fp.zero]
  refine ⟨p.doubleT, G1.double_eq p, hz3, ?_⟩
  unfold G1.is_infinity
  rw [hz3]
  rfl

/-- C10 witness: the concrete non-infinity point `(1, 0, 1)` with zero
Y coordinate. -/
theorem C10_double_order_two_witness :
    ∃ d, (G1.mk ⟨1⟩ ⟨0⟩ ⟨1⟩).double = some d ∧ d.z = Fp.zero ∧ d.is_infinity = true :=
  C10_double_order_two ⟨⟨1⟩, ⟨0⟩, ⟨1⟩⟩ rfl rfl

/-- C8: `mul_u128` by scalar 0 returns the canonical infinity, and by
scalar 1 returns the point itself, unchanged. -/
theorem C8_scalar_zero_one (p : G1) :
    p.mul_u128 0 = some G1.infinity ∧ p.mul_u128 1 = some p := by
  have h1 : G1.infinity.add p = some p := by
    rw [G1.add_eq]
    unfold G1.addT
    rw [if_pos (show G1.infinity.is_infinity = true from rfl)]
  constructor
  · rw [G1.mul_u128, G1.mulLoop]
    simp
  · rw [G1.mul_u128, G1.mulLoop]
    rw [if_neg (by omega : ¬(1 : Nat) = 0)]
    simp only [show (1 : Nat) % 2 = 1 from rfl, if_pos, h1, G1.double_eq]
    rw [show (1 : Nat) / 2 = 0 from rfl, G1.mulLoop]
    simp

/-- C2: for a non-infinity point, `double` returns exactly the triple
given by `X3 = M² − 2S`, `Y3 = M(S − X3) − 4·YYYY` (the source's literal
four-fold subtraction of `YYYY`, effective coefficient 4), and
`Z3 = 2·Y1·Z1`, with `XX = X1²`, `YY = Y1²`, `YYYY = YY²`,
`S = 2((X1+YY)² − XX − YYYY)`, `M = 3XX`, all in the field `ZMod P`;
and `double` returns the point unchanged when it is infinity. -/
theorem C2_double_formula (p : G1) :
    (p.is_infinity = true → p.double = some p) ∧
    (p.is_infinity = false →
      ∃ d, p.double = some d ∧
        d.x.toZMod = (3 * p.x.toZMod ^ 2) ^ 2 - 2 * (2 * ((p.x.toZMod + p.y.toZMod ^ 2) ^ 2 - p.x.toZMod ^ 2 - (p.y.toZMod ^ 2) ^ 2)) ∧
        d.y.toZMod = (3 * p.x.toZMod ^ 2) * ((2 * ((p.x.toZMod + p.y.toZMod ^ 2) ^ 2 - p.x.toZMod ^ 2 - (p.y.toZMod ^ 2) ^ 2)) - ((3 * p.x.toZMod ^ 2) ^ 2 - 2 * (2 * ((p.x.toZMod + p.y.toZMod ^ 2) ^ 2 - p.x.toZMod ^ 2 - (p.y.toZMod ^ 2) ^ 2)))) - 4 * (p.y.toZMod ^ 2) ^ 2 ∧
        d.z.toZMod = 2 * p.y.toZMod * p.z.toZMod) := by
  constructor
  · intro h
    rw [G1.double_eq]
    unfold G1.doubleT
    rw [if_pos h]
  · intro h
    refine ⟨p.doubleT, G1.double_eq p, ?_, ?_, ?_⟩ <;>
      (unfold G1.doubleT
       rw [if_neg (by simp [h])]
       simp only [Fp.toZMod_subT, Fp.toZMod_add, Fp.toZMod_mul, Fp.subT_lt, Fp.mul_lt,
         Fp.add_lt, Fp.new_lt]
       ring)

/-- C2 witness: the concrete non-infinity point `(1, 2, 1)`. -/
theorem C2_double_formula_witness :
    (G1.mk ⟨1⟩ ⟨2⟩ ⟨1⟩).is_infinity = false ∧
    (∃ d, (G1.mk ⟨1⟩ ⟨2⟩ ⟨1⟩).double = some d ∧
        d.x.toZMod = (3 * Fp.toZMod ⟨1⟩ ^ 2) ^ 2 - 2 * (2 * ((Fp.toZMod ⟨1⟩ + Fp.toZMod ⟨2⟩ ^ 2) ^ 2 - Fp.toZMod ⟨1⟩ ^ 2 - (Fp.toZMod ⟨2⟩ ^ 2) ^ 2)) ∧
        d.y.toZMod = (3 * Fp.toZMod ⟨1⟩ ^ 2) * ((2 * ((Fp.toZMod ⟨1⟩ + Fp.toZMod ⟨2⟩ ^ 2) ^ 2 - Fp.toZMod ⟨1⟩ ^ 2 - (Fp.toZMod ⟨2⟩ ^ 2) ^ 2)) - ((3 * Fp.toZMod ⟨1⟩ ^ 2) ^ 2 - 2 * (2 * ((Fp.toZMod ⟨1⟩ + Fp.toZMod ⟨2⟩ ^ 2) ^ 2 - Fp.toZMod ⟨1⟩ ^ 2 - (Fp.toZMod ⟨2⟩ ^ 2) ^ 2)))) - 4 * (Fp.toZMod ⟨2⟩ ^ 2) ^ 2 ∧
        d.z.toZMod = 2 * Fp.toZMod ⟨2⟩ * Fp.toZMod ⟨1⟩) :=
  ⟨rfl, (C2_double_formula ⟨⟨1⟩, ⟨2⟩, ⟨1⟩⟩).2 rfl⟩

/-! ## Correctness of the extended Euclidean inversion loop

Loop invariants for `Fp.invLoop` on state `(a, m, x0, x1)` with the
original argument `n`:
`x1·n ≡ a` and `x0·n ≡ m (mod P)`; `a·|x0| + m·|x1| = P` exactly;
the Bézout coefficients alternate in sign; `|x1| ≤ P`. -/

theorem invLoop_spec (n a m : Nat) (x0 x1 : Int)
    (ha : 1 ≤ a) (hg : Nat.gcd m a = 1)
    (h1 : x1 * (n : Int) ≡ (a : Int) [ZMOD (P : Int)])
    (h0 : x0 * (n : Int) ≡ (m : Int) [ZMOD (P : Int)])
    (hb : (a : Int) * |x0| + (m : Int) * |x1| = (P : Int))
    (hs : (x0 ≤ 0 ∧ 0 ≤ x1) ∨ (0 ≤ x0 ∧ x1 ≤ 0))
    (hx1 : |x1| ≤ (P : Int)) :
    ∃ r : Int, Fp.invLoop a m x0 x1 = some r ∧
      r * (n : Int) ≡ 1 [ZMOD (P : Int)] ∧ |r| ≤ (P : Int) := by
  by_cases hA : a = 1
  · refine ⟨x1, ?_, ?_, hx1⟩
    · rw [Fp.invLoop, if_pos hA]
    · subst hA
      simpa using h1
  · have hm : m ≠ 0 := by
      intro h
      subst h
      simp [Nat.gcd_zero_left] at hg
      exact hA hg
    have hmpos : 0 < m := Nat.pos_of_ne_zero hm
    have hanneg : (0 : Int) ≤ (a / m : Nat) := Int.natCast_nonneg _
    have hnat : m * (a / m) + a % m = a := Nat.div_add_mod a m
    have hcast : (m : Int) * ((a / m : Nat) : Int) + ((a % m : Nat) : Int) = (a : Int) := by
      exact_mod_cast hnat
    have habs' : |x1 - ((a / m : Nat) : Int) * x0| = |x1| + ((a / m : Nat) : Int) * |x0| := by
      rcases hs with ⟨hx0, hx1p⟩ | ⟨hx0, hx1p⟩
      · have hqx : ((a / m : Nat) : Int) * x0 ≤ 0 := mul_nonpos_of_nonneg_of_nonpos hanneg hx0
        rw [abs_of_nonneg (by linarith), abs_of_nonneg hx1p, abs_of_nonpos hx0]
        ring
      · have hqx : (0 : Int) ≤ ((a / m : Nat) : Int) * x0 := mul_nonneg hanneg hx0
        rw [abs_of_nonpos (by linarith), abs_of_nonpos hx1p, abs_of_nonneg hx0]
        ring
    have hb' : ((m : Int)) * |x1 - ((a / m : Nat) : Int) * x0| +
        ((a % m : Nat) : Int) * |x0| = (P : Int) := by
      rw [habs']
      have hkey : (m : Int) * (|x1| + ((a / m : Nat) : Int) * |x0|) +
          ((a % m : Nat) : Int) * |x0| = (a : Int) * |x0| + (m : Int) * |x1| := by
        linear_combination |x0| * hcast
      rw [hkey, hb]
    have h0' : (x1 - ((a / m : Nat) : Int) * x0) * (n : Int) ≡
        ((a % m : Nat) : Int) [ZMOD (P : Int)] := by
      have step : (x1 - ((a / m : Nat) : Int) * x0) * (n : Int) =
          x1 * n - ((a / m : Nat) : Int) * (x0 * n) := by ring
      rw [step]
      calc x1 * (n : Int) - ((a / m : Nat) : Int) * (x0 * n)
          ≡ (a : Int) - ((a / m : Nat) : Int) * m [ZMOD (P : Int)] :=
            Int.ModEq.sub h1 (Int.ModEq.mul_left _ h0)
        _ = ((a % m : Nat) : Int) := by linear_combination -hcast
    have hg' : Nat.gcd (a % m) m = 1 := by
      rw [← Nat.gcd_rec]
      exact hg
    have hs' : ((x1 - ((a / m : Nat) : Int) * x0) ≤ 0 ∧ 0 ≤ x0) ∨
        (0 ≤ (x1 - ((a / m : Nat) : Int) * x0) ∧ x0 ≤ 0) := by
      rcases hs with ⟨hx0, hx1p⟩ | ⟨hx0, hx1p⟩
      · have hqx : ((a / m : Nat) : Int) * x0 ≤ 0 := mul_nonpos_of_nonneg_of_nonpos hanneg hx0
        exact Or.inr ⟨by linarith, hx0⟩
      · have hqx : (0 : Int) ≤ ((a / m : Nat) : Int) * x0 := mul_nonneg hanneg hx0
        exact Or.inl ⟨by linarith, hx0⟩
    have hx1' : |x0| ≤ (P : Int) := by
      have haI : (1 : Int) ≤ (a : Int) := by exact_mod_cast ha
      have hmx : (0 : Int) ≤ (m : Int) * |x1| :=
        mul_nonneg (Int.natCast_nonneg _) (abs_nonneg _)
      nlinarith [abs_nonneg x0]
    obtain ⟨r, hr1, hr2, hr3⟩ := invLoop_spec n m (a % m)
      (x1 - ((a / m : Nat) : Int) * x0) x0 hmpos hg' h0 h0' hb' hs' hx1'
    refine ⟨r, ?_, hr2, hr3⟩
    rw [Fp.invLoop, if_neg hA, dif_neg hm]
    exact hr1
termination_by a + 2 * m
decreasing_by
  have hx : a % m < m := Nat.mod_lt _ (Nat.pos_of_ne_zero hm)
  have hy : a % m ≤ a := Nat.mod_le _ _
  have hz : a < m → a % m = a := Nat.mod_eq_of_lt
  omega

/-- For a nonzero reduced element, `inv` succeeds and returns the
reduced multiplicative inverse. -/
theorem Fp.inv_ok (x : Fp) (hne : x.n ≠ 0) (hlt : x.n < P) :
    ∃ r : Fp, x.inv = .ok r ∧ r.n < P ∧ r.toZMod * x.toZMod = 1 := by
  have hgcd : Nat.gcd P x.n = 1 :=
    (Nat.Prime.coprime_iff_not_dvd P_prime).mpr
      (fun hdvd => absurd (Nat.le_of_dvd (Nat.pos_of_ne_zero hne) hdvd) (not_le.mpr hlt))
  have hPi : (1 : Int) ≤ (P : Int) := by exact_mod_cast Fp.P_pos
  have h1 : (1 : Int) * (x.n : Int) ≡ (x.n : Int) [ZMOD (P : Int)] := by
    rw [one_mul]
  have h0 : (0 : Int) * (x.n : Int) ≡ ((P : Nat) : Int) [ZMOD (P : Int)] := by
    rw [zero_mul]
    unfold Int.ModEq
    rw [Int.emod_self, Int.zero_emod]
  have hb : ((x.n : Nat) : Int) * |(0 : Int)| + ((P : Nat) : Int) * |(1 : Int)| = (P : Int) := by
    simp
  obtain ⟨r, hloop, hmod, habs⟩ := invLoop_spec x.n x.n P 0 1
    (Nat.one_le_iff_ne_zero.mpr hne) hgcd h1 h0 hb
    (Or.inl ⟨le_refl 0, by norm_num⟩) (by rw [abs_one]; exact hPi)
  have habs' := abs_le.mp habs
  set y : Int := if r < 0 then r + (P : Int) else r with hy
  have hy0 : 0 ≤ y := by
    rw [hy]
    split
    · linarith [habs'.1]
    · linarith [not_lt.mp (by assumption)]
  have hymod : y ≡ r [ZMOD (P : Int)] := by
    rw [hy]
    split
    · unfold Int.ModEq
      rw [show r + (P : Int) = r + (P : Int) * 1 by ring, Int.add_mul_emod_self_left]
    · rfl
  refine ⟨Fp.new y.toNat, ?_, Fp.new_lt _, ?_⟩
  · unfold Fp.inv
    rw [if_neg hne, hloop]
    show (if y < 0 then _ else Except.ok (Fp.new y.toNat)) = Except.ok (Fp.new y.toNat)
    rw [if_neg (not_lt.mpr hy0)]
  · rw [Fp.toZMod_new]
    have hyn : y * (x.n : Int) ≡ 1 [ZMOD (P : Int)] := (hymod.mul_right _).trans hmod
    have hz := (ZMod.intCast_eq_intCast_iff _ _ _).mpr hyn
    rw [Fp.toZMod]
    push_cast at hz
    rw [← hz]
    congr 1
    rw [show ((y.toNat : Nat) : ZMod P) = ((y.toNat : Int) : ZMod P) by push_cast; rfl]
    rw [Int.toNat_of_nonneg hy0]

/-- C3: every nonzero reduced field element is invertible: `invert`
succeeds and `mul(a, invert(a)) = one`. -/
theorem C3_invert_correct (a : Fp) (h1 : 1 ≤ a.n) (h2 : a.n < P) :
    ∃ r : Fp, a.inv = .ok r ∧ a.mul r = Fp.one := by
  obtain ⟨r, hok, hlt, hmul⟩ := Fp.inv_ok a (by omega) h2
  refine ⟨r, hok, ?_⟩
  apply Fp.eq_of_toZMod_eq (Fp.mul_lt _ _) Fp.one_n_lt
  rw [Fp.toZMod_mul, Fp.toZMod_one, mul_comm]
  exact hmul

/-- C3 witness: the concrete nonzero element 2. -/
theorem C3_invert_correct_witness :
    ∃ r : Fp, Fp.inv ⟨2⟩ = .ok r ∧ Fp.mul ⟨2⟩ r = Fp.one :=
  C3_invert_correct ⟨2⟩ (by decide) (by decide)

/-- C7: Fermat's little theorem for the fixed prime modulus: for every
nonzero reduced element, `power(a, P − 1) = one`, with `P` the stated
254-bit prime. -/
theorem C7_fermat_little :
    P = 21888242871839275222246405745257275088548364400416034343698204186575808495617 ∧
    ∀ a : Fp, 1 ≤ a.n → a.n < P → a.pow (P - 1) = Fp.one := by
  refine ⟨rfl, ?_⟩
  intro a h1 h2
  apply Fp.eq_of_toZMod_eq (Fp.pow_lt _ _) Fp.one_n_lt
  rw [Fp.toZMod_pow, Fp.toZMod_one]
  have hne : a.toZMod ≠ 0 := by
    rw [Ne, Fp.toZMod_eq_zero_iff h2]
    omega
  exact ZMod.pow_card_sub_one_eq_one hne

/-- C7 witness: the concrete nonzero element 5. -/
theorem C7_fermat_little_witness : Fp.pow ⟨5⟩ (P - 1) = Fp.one :=
  C7_fermat_little.2 ⟨5⟩ (by decide) (by decide)

/-- In `ZMod P`, the residue 2 is nonzero (the modulus is an odd prime). -/
theorem two_ne_zero_zmodP : (2 : ZMod P) ≠ 0 := by
  intro habs
  rw [show (2 : ZMod P) = ((2 : Nat) : ZMod P) by norm_cast] at habs
  rw [ZMod.natCast_zmod_eq_zero_iff_dvd] at habs
  have hle := Nat.le_of_dvd (by norm_num) habs
  revert hle
  decide

/-- C5: adding a point to the point with the same X and Z but negated Y
yields the group identity. -/
theorem C5_add_negated_is_infinity (p : G1) (negY : Fp)
    (hx : p.x.n < P) (hy : p.y.n < P) (hz : p.z.n < P)
    (hneg : Fp.neg p.y = some negY) :
    ∃ r, p.add ⟨p.x, negY, p.z⟩ = some r ∧ r.is_infinity = true := by
  have hnegY : negY = Fp.negT p.y := by
    rw [Fp.neg_eq p.y hy] at hneg
    exact (Option.some_inj.mp hneg).symm
  rw [G1.add_eq]
  refine ⟨_, rfl, ?_⟩
  unfold G1.addT
  by_cases hinf : p.is_infinity
  · rw [if_pos hinf]
    exact hinf
  · rw [if_neg hinf]
    rw [if_neg (show ¬((⟨p.x, negY, p.z⟩ : G1).is_infinity = true) from hinf)]
    rw [if_pos rfl]
    split
    next hss =>
      -- same affine point: the shared Y must vanish, so the double is infinity
      have hzne : p.z.toZMod ≠ 0 := by
        rw [Ne, Fp.toZMod_eq_zero_iff hz]
        unfold G1.is_infinity at hinf
        simpa using hinf
      have hy0 : p.y.n = 0 := by
        have h2 := congrArg Fp.toZMod hss
        simp only [Fp.toZMod_mul] at h2
        rw [hnegY, Fp.toZMod_negT p.y hy] at h2
        have h2' : (2 : ZMod P) * p.y.toZMod * p.z.toZMod ^ 3 = 0 := by
          linear_combination h2
        rcases mul_eq_zero.mp h2' with h | h
        · rcases mul_eq_zero.mp h with h' | h'
          · exact absurd h' two_ne_zero_zmodP
          · exact (Fp.toZMod_eq_zero_iff hy).mp h'
        · exact absurd h (pow_ne_zero 3 hzne)
      have hz0 : ¬p.z.n = 0 := by
        unfold G1.is_infinity at hinf
        simpa using hinf
      simp [G1.doubleT, hz0, G1.is_infinity, Fp.add, Fp.mul, Fp.new, hy0]
    next hss => rfl

/-- C5 witness: the on-curve point `(1, 2, 1)` and its negated-Y mirror. -/
theorem C5_add_negated_is_infinity_witness :
    ∃ r, G1.add ⟨⟨1⟩, ⟨2⟩, ⟨1⟩⟩ ⟨⟨1⟩, Fp.new (P - 2), ⟨1⟩⟩ = some r ∧ r.is_infinity = true :=
  C5_add_negated_is_infinity ⟨⟨1⟩, ⟨2⟩, ⟨1⟩⟩ (Fp.new (P - 2)) (by decide) (by decide) (by decide)
    (by rw [Fp.neg_eq ⟨2⟩ (by decide)]; rfl)

namespace G1

theorem to_affine_infinity (p : G1) (h : p.is_infinity = true) :
    p.to_affine = .ok (Fp.zero, Fp.zero) := by
  unfold to_affine
  rw [if_pos h]

/-- For a non-infinity point with reduced Z, `to_affine` succeeds and
returns the reduced pair `(X·Z⁻², Y·Z⁻³)` of residues. -/
theorem to_affine_spec (p : G1) (hz : p.z.n ≠ 0) (hzlt : p.z.n < P) :
    ∃ xa ya : Fp, p.to_affine = .ok (xa, ya) ∧ xa.n < P ∧ ya.n < P ∧
      xa.toZMod = p.x.toZMod * (p.z.toZMod)⁻¹ ^ 2 ∧
      ya.toZMod = p.y.toZMod * (p.z.toZMod)⁻¹ ^ 3 := by
  obtain ⟨w, hok, hwlt, hwmul⟩ := Fp.inv_ok p.z hz hzlt
  have hw : w.toZMod = (p.z.toZMod)⁻¹ := eq_inv_of_mul_eq_one_left hwmul
  refine ⟨p.x.mul (w.mul w), p.y.mul ((w.mul w).mul w), ?_, Fp.mul_lt _ _, Fp.mul_lt _ _, ?_, ?_⟩
  · unfold to_affine
    rw [if_neg (show ¬(p.is_infinity = true) by unfold is_infinity; simpa using hz)]
    rw [hok]
    rfl
  · rw [Fp.toZMod_mul, Fp.toZMod_mul, hw]
    ring
  · rw [Fp.toZMod_mul, Fp.toZMod_mul, Fp.toZMod_mul, hw]
    ring

/-- Two non-infinity points with reduced Z agree under `to_affine` as
soon as their cross-multiplied Jacobian coordinates agree. -/
theorem to_affine_eq (d e : G1) (hdlt : d.z.n < P) (helt : e.z.n < P)
    (hdz0 : d.z.toZMod ≠ 0) (hez0 : e.z.toZMod ≠ 0)
    (hX : d.x.toZMod * e.z.toZMod ^ 2 = e.x.toZMod * d.z.toZMod ^ 2)
    (hY : d.y.toZMod * e.z.toZMod ^ 3 = e.y.toZMod * d.z.toZMod ^ 3) :
    d.to_affine = e.to_affine := by
  have hdzn : d.z.n ≠ 0 := by
    intro h
    exact hdz0 ((Fp.toZMod_eq_zero_iff hdlt).mpr h)
  have hezn : e.z.n ≠ 0 := by
    intro h
    exact hez0 ((Fp.toZMod_eq_zero_iff helt).mpr h)
  obtain ⟨xa, ya, hd, hxa, hya, hdx, hdy⟩ := to_affine_spec d hdzn hdlt
  obtain ⟨xb, yb, he, hxb, hyb, hex, hey⟩ := to_affine_spec e hezn helt
  rw [hd, he]
  have h1 : xa = xb := by
    apply Fp.eq_of_toZMod_eq hxa hxb
    rw [hdx, hex]
    field_simp
    linear_combination hX
  have h2 : ya = yb := by
    apply Fp.eq_of_toZMod_eq hya hyb
    rw [hdy, hey]
    field_simp
    linear_combination hY
  rw [h1, h2]

/-- Doubling a point whose raw Y is zero lands on the point at
infinity. -/
theorem doubleT_infinity_of_y_zero (p : G1) (hy0 : p.y.n = 0) :
    p.doubleT.is_infinity = true := by
  by_cases hz0 : p.z.n = 0
  · unfold doubleT
    rw [if_pos (show p.is_infinity = true by unfold is_infinity; simpa using hz0)]
    unfold is_infinity
    simpa using hz0
  · simp [G1.doubleT, hz0, G1.is_infinity, Fp.add, Fp.mul, Fp.new, hy0]

end G1

namespace G1

theorem doubleT_z (p : G1) (h : p.is_infinity = false) :
    p.doubleT.z = (p.y.mul p.z).add (p.y.mul p.z) := by
  unfold doubleT
  rw [if_neg (by simp [h])]

/-- The residues of the three Jacobian coordinates `double` produces on
a non-infinity point, as polynomials over `ZMod P`. -/
theorem doubleT_toZMod (p : G1) (h : p.is_infinity = false) :
    p.doubleT.x.toZMod =
      (3 * p.x.toZMod ^ 2) ^ 2 -
        2 * (2 * ((p.x.toZMod + p.y.toZMod ^ 2) ^ 2 - p.x.toZMod ^ 2 - (p.y.toZMod ^ 2) ^ 2)) ∧
    p.doubleT.y.toZMod =
      3 * p.x.toZMod ^ 2 *
          (2 * ((p.x.toZMod + p.y.toZMod ^ 2) ^ 2 - p.x.toZMod ^ 2 - (p.y.toZMod ^ 2) ^ 2) -
            ((3 * p.x.toZMod ^ 2) ^ 2 -
              2 * (2 * ((p.x.toZMod + p.y.toZMod ^ 2) ^ 2 - p.x.toZMod ^ 2 -
                (p.y.toZMod ^ 2) ^ 2)))) -
        4 * (p.y.toZMod ^ 2) ^ 2 ∧
    p.doubleT.z.toZMod = 2 * p.y.toZMod * p.z.toZMod := by
  refine ⟨?_, ?_, ?_⟩ <;>
    (unfold doubleT
     rw [if_neg (by simp [h])]
     simp only [Fp.toZMod_subT, Fp.toZMod_add, Fp.toZMod_mul, Fp.subT_lt, Fp.mul_lt,
       Fp.add_lt, Fp.new_lt]
     ring)

set_option maxHeartbeats 1000000 in
/-- Two representatives of the same affine point (equal `U` and `S`
cross-products) stay affine-equal after doubling: the doubling formula,
including its non-standard `4·YYYY` term, is covariant under Jacobian
rescaling. -/
theorem doubleT_affine_eq (p q : G1)
    (hpy : p.y.n < P) (hqy : q.y.n < P) (hpz : p.z.n < P) (hqz : q.z.n < P)
    (hpzn : p.z.n ≠ 0) (hqzn : q.z.n ≠ 0)
    (hU : p.x.toZMod * (q.z.toZMod * q.z.toZMod) = q.x.toZMod * (p.z.toZMod * p.z.toZMod))
    (hS : p.y.toZMod * (q.z.toZMod * q.z.toZMod) * q.z.toZMod
        = q.y.toZMod * (p.z.toZMod * p.z.toZMod) * p.z.toZMod) :
    p.doubleT.to_affine = q.doubleT.to_affine := by
  have hpz0 : p.z.toZMod ≠ 0 := fun hh => hpzn ((Fp.toZMod_eq_zero_iff hpz).mp hh)
  have hqz0 : q.z.toZMod ≠ 0 := fun hh => hqzn ((Fp.toZMod_eq_zero_iff hqz).mp hh)
  have hpinf : p.is_infinity = false := by
    unfold is_infinity
    simpa using hpzn
  have hqinf : q.is_infinity = false := by
    unfold is_infinity
    simpa using hqzn
  by_cases hy1 : p.y.n = 0
  · have hY1 : p.y.toZMod = 0 := (Fp.toZMod_eq_zero_iff hpy).mpr hy1
    have hY2 : q.y.toZMod = 0 := by
      have h2 : q.y.toZMod * (p.z.toZMod * p.z.toZMod) * p.z.toZMod = 0 := by
        rw [← hS, hY1]
        ring
      rcases mul_eq_zero.mp h2 with h3 | h3
      · rcases mul_eq_zero.mp h3 with h4 | h4
        · exact h4
        · exact absurd h4 (mul_ne_zero hpz0 hpz0)
      · exact absurd h3 hpz0
    have hy2 : q.y.n = 0 := (Fp.toZMod_eq_zero_iff hqy).mp hY2
    rw [to_affine_infinity _ (doubleT_infinity_of_y_zero p hy1),
        to_affine_infinity _ (doubleT_infinity_of_y_zero q hy2)]
  · have hY1 : p.y.toZMod ≠ 0 := fun hh => hy1 ((Fp.toZMod_eq_zero_iff hpy).mp hh)
    have hY2 : q.y.toZMod ≠ 0 := by
      intro hh
      apply hY1
      have h2 : p.y.toZMod * (q.z.toZMod * q.z.toZMod) * q.z.toZMod = 0 := by
        rw [hS, hh]
        ring
      rcases mul_eq_zero.mp h2 with h3 | h3
      · rcases mul_eq_zero.mp h3 with h4 | h4
        · exact h4
        · exact absurd h4 (mul_ne_zero hqz0 hqz0)
      · exact absurd h3 hqz0
    obtain ⟨hdx, hdy, hdz⟩ := doubleT_toZMod p hpinf
    obtain ⟨hex, hey, hez⟩ := doubleT_toZMod q hqinf
    obtain ⟨lam, hlam⟩ : ∃ l : ZMod P, q.z.toZMod = p.z.toZMod * l :=
      ⟨q.z.toZMod / p.z.toZMod, by field_simp⟩
    have hX2 : q.x.toZMod = p.x.toZMod * lam ^ 2 := by
      apply mul_right_cancel₀ (mul_ne_zero hpz0 hpz0)
      have hU' := hU
      rw [hlam] at hU'
      linear_combination -hU'
    have hY2v : q.y.toZMod = p.y.toZMod * lam ^ 3 := by
      apply mul_right_cancel₀ (mul_ne_zero (mul_ne_zero hpz0 hpz0) hpz0)
      have hS' := hS
      rw [hlam] at hS'
      linear_combination -hS'
    apply to_affine_eq
    · rw [doubleT_z p hpinf]
      exact Fp.add_lt _ _
    · rw [doubleT_z q hqinf]
      exact Fp.add_lt _ _
    · rw [hdz]
      exact mul_ne_zero (mul_ne_zero two_ne_zero_zmodP hY1) hpz0
    · rw [hez]
      exact mul_ne_zero (mul_ne_zero two_ne_zero_zmodP hY2) hqz0
    · rw [hdx, hdz, hex, hez, hX2, hY2v, hlam]
      ring
    · rw [hdy, hdz, hey, hez, hX2, hY2v, hlam]
      ring

end G1

set_option maxHeartbeats 4000000 in
/-- C6: point addition is commutative up to affine conversion, for
distinct on-curve points with reduced coordinates. -/
theorem C6_add_commutes (p q : G1)
    (hpx : p.x.n < P) (hpy : p.y.n < P) (hpz : p.z.n < P)
    (hqx : q.x.n < P) (hqy : q.y.n < P) (hqz : q.z.n < P)
    (hne : p ≠ q)
    (hocp : p.is_on_curve = .ok true) (hocq : q.is_on_curve = .ok true) :
    ∃ r s, p.add q = some r ∧ q.add p = some s ∧ r.to_affine = s.to_affine := by
  refine ⟨p.addT q, q.addT p, G1.add_eq p q, G1.add_eq q p, ?_⟩
  by_cases hpi : p.is_infinity
  · rw [show p.addT q = q by unfold G1.addT; rw [if_pos hpi]]
    by_cases hqi : q.is_infinity
    · rw [show q.addT p = p by unfold G1.addT; rw [if_pos hqi]]
      rw [G1.to_affine_infinity p hpi, G1.to_affine_infinity q hqi]
    · rw [show q.addT p = q by unfold G1.addT; rw [if_neg hqi, if_pos hpi]]
  · by_cases hqi : q.is_infinity
    · rw [show p.addT q = p by unfold G1.addT; rw [if_neg hpi, if_pos hqi],
          show q.addT p = p by unfold G1.addT; rw [if_pos hqi]]
    · have hpzn : p.z.n ≠ 0 := by
        unfold G1.is_infinity at hpi
        simpa using hpi
      have hqzn : q.z.n ≠ 0 := by
        unfold G1.is_infinity at hqi
        simpa using hqi
      have hpz0 : p.z.toZMod ≠ 0 := fun hh => hpzn ((Fp.toZMod_eq_zero_iff hpz).mp hh)
      have hqz0 : q.z.toZMod ≠ 0 := fun hh => hqzn ((Fp.toZMod_eq_zero_iff hqz).mp hh)
      by_cases hu : p.x.mul (q.z.mul q.z) = q.x.mul (p.z.mul p.z)
      · by_cases hss : (p.y.mul (q.z.mul q.z)).mul q.z = (q.y.mul (p.z.mul p.z)).mul p.z
        · rw [show p.addT q = p.doubleT by
                unfold G1.addT; rw [if_neg hpi, if_neg hqi]
                simp only [hu, hss, eq_self_iff_true, if_true],
              show q.addT p = q.doubleT by
                unfold G1.addT; rw [if_neg hqi, if_neg hpi]
                simp only [hu.symm, hss.symm, eq_self_iff_true, if_true]]
          have hU := congrArg Fp.toZMod hu
          have hS := congrArg Fp.toZMod hss
          simp only [Fp.toZMod_mul] at hU hS
          exact G1.doubleT_affine_eq p q hpy hqy hpz hqz hpzn hqzn hU hS
        · have hss2 : ¬((q.y.mul (p.z.mul p.z)).mul p.z = (p.y.mul (q.z.mul q.z)).mul q.z) :=
            fun hh => hss hh.symm
          rw [show p.addT q = G1.infinity by
                unfold G1.addT; rw [if_neg hpi, if_neg hqi]
                simp only [hu, eq_self_iff_true, if_true, hss, if_false],
              show q.addT p = G1.infinity by
                unfold G1.addT; rw [if_neg hqi, if_neg hpi]
                simp only [hu.symm, eq_self_iff_true, if_true, hss2, if_false]]
      · have hune : ¬(q.x.mul (p.z.mul p.z) = p.x.mul (q.z.mul q.z)) := fun hh => hu hh.symm
        have hUz : q.x.toZMod * (p.z.toZMod * p.z.toZMod) -
            p.x.toZMod * (q.z.toZMod * q.z.toZMod) ≠ 0 := by
          refine sub_ne_zero.mpr (fun hh => hune ?_)
          apply Fp.eq_of_toZMod_eq (Fp.mul_lt _ _) (Fp.mul_lt _ _)
          simp only [Fp.toZMod_mul]
          exact hh
        have hpq : p.addT q =
            (let z1z1 := p.z.mul p.z
       let z2z2 := q.z.mul q.z
       let u1 := p.x.mul z2z2
       let u2 := q.x.mul z1z1
       let s1 := (p.y.mul z2z2).mul q.z
       let s2 := (q.y.mul z1z1).mul p.z
       let h := Fp.subT u2 u1
       let i := (h.add h).mul (h.add h)
       let j := h.mul i
       let ra := Fp.subT s2 s1
       let rb := Fp.subT s2 s1
       let r := ra.add rb
       let v := u1.mul i
       let x3a := Fp.subT (r.mul r) j
       let x3b := Fp.subT x3a v
       let x3 := Fp.subT x3b v
       let y3a := Fp.subT v x3
       let y3b := Fp.subT (r.mul y3a) (s1.mul j)
       let y3 := Fp.subT y3b (s1.mul j)
       let z3a := Fp.subT ((p.z.add q.z).mul (p.z.add q.z)) z1z1
       let z3b := Fp.subT z3a z2z2
       let z3 := z3b.mul h
       (⟨x3, y3, z3⟩ : G1)) := by
          unfold G1.addT
          rw [if_neg hpi, if_neg hqi]
          simp only [hu, if_false]
        have hqp : q.addT p =
            (let z1z1 := q.z.mul q.z
       let z2z2 := p.z.mul p.z
       let u1 := q.x.mul z2z2
       let u2 := p.x.mul z1z1
       let s1 := (q.y.mul z2z2).mul p.z
       let s2 := (p.y.mul z1z1).mul q.z
       let h := Fp.subT u2 u1
       let i := (h.add h).mul (h.add h)
       let j := h.mul i
       let ra := Fp.subT s2 s1
       let rb := Fp.subT s2 s1
       let r := ra.add rb
       let v := u1.mul i
       let x3a := Fp.subT (r.mul r) j
       let x3b := Fp.subT x3a v
       let x3 := Fp.subT x3b v
       let y3a := Fp.subT v x3
       let y3b := Fp.subT (r.mul y3a) (s1.mul j)
       let y3 := Fp.subT y3b (s1.mul j)
       let z3a := Fp.subT ((q.z.add p.z).mul (q.z.add p.z)) z1z1
       let z3b := Fp.subT z3a z2z2
       let z3 := z3b.mul h
       (⟨x3, y3, z3⟩ : G1)) := by
          unfold G1.addT
          rw [if_neg hqi, if_neg hpi]
          simp only [hune, if_false]
        rw [hpq, hqp]
        apply G1.to_affine_eq
        · exact Fp.mul_lt _ _
        · exact Fp.mul_lt _ _
        · intro habs
          simp only [Fp.toZMod_subT, Fp.toZMod_add, Fp.toZMod_mul, Fp.subT_lt, Fp.mul_lt,
            Fp.add_lt, Fp.new_lt] at habs
          have hfac : 2 * p.z.toZMod * q.z.toZMod *
              (q.x.toZMod * (p.z.toZMod * p.z.toZMod) -
                p.x.toZMod * (q.z.toZMod * q.z.toZMod)) = 0 := by
            linear_combination habs
          rcases mul_eq_zero.mp hfac with hf | hf
          · rcases mul_eq_zero.mp hf with hg | hg
            · rcases mul_eq_zero.mp hg with hk | hk
              · exact two_ne_zero_zmodP hk
              · exact hpz0 hk
            · exact hqz0 hg
          · exact hUz hf
        · intro habs
          simp only [Fp.toZMod_subT, Fp.toZMod_add, Fp.toZMod_mul, Fp.subT_lt, Fp.mul_lt,
            Fp.add_lt, Fp.new_lt] at habs
          have hfac : 2 * p.z.toZMod * q.z.toZMod *
              (q.x.toZMod * (p.z.toZMod * p.z.toZMod) -
                p.x.toZMod * (q.z.toZMod * q.z.toZMod)) = 0 := by
            linear_combination -habs
          rcases mul_eq_zero.mp hfac with hf | hf
          · rcases mul_eq_zero.mp hf with hg | hg
            · rcases mul_eq_zero.mp hg with hk | hk
              · exact two_ne_zero_zmodP hk
              · exact hpz0 hk
            · exact hqz0 hg
          · exact hUz hf
        · simp only [Fp.toZMod_subT, Fp.toZMod_add, Fp.toZMod_mul, Fp.subT_lt, Fp.mul_lt,
            Fp.add_lt, Fp.new_lt]
          ring
        · simp only [Fp.toZMod_subT, Fp.toZMod_add, Fp.toZMod_mul, Fp.subT_lt, Fp.mul_lt,
            Fp.add_lt, Fp.new_lt]
          ring

/-- `invLoop` exits immediately on `a = 1`. -/
theorem invLoop_one (m : Nat) (x0 x1 : Int) : Fp.invLoop 1 m x0 x1 = some x1 := by
  rw [Fp.invLoop]
  norm_num

/-- The inverse of the field element 1 is 1. -/
theorem inv_one_eq : Fp.inv ⟨1⟩ = .ok ⟨1⟩ := by
  unfold Fp.inv
  rw [if_neg (show ¬((1 : Nat) = 0) by decide), invLoop_one]
  rfl

/-- C6 witness: the distinct on-curve points `(1, 2, 1)` and
`(1, P − 2, 1)`. -/
theorem C6_add_commutes_witness :
    ∃ r s, G1.add ⟨⟨1⟩, ⟨2⟩, ⟨1⟩⟩ ⟨⟨1⟩, ⟨P - 2⟩, ⟨1⟩⟩ = some r ∧
      G1.add ⟨⟨1⟩, ⟨P - 2⟩, ⟨1⟩⟩ ⟨⟨1⟩, ⟨2⟩, ⟨1⟩⟩ = some s ∧
      r.to_affine = s.to_affine := by
  have hoc1 : (G1.mk ⟨1⟩ ⟨2⟩ ⟨1⟩).is_on_curve = .ok true := by
    unfold G1.is_on_curve G1.to_affine
    rw [show (G1.mk ⟨1⟩ ⟨2⟩ ⟨1⟩).z = (⟨1⟩ : Fp) from rfl, inv_one_eq]
    rfl
  have hoc2 : (G1.mk ⟨1⟩ ⟨P - 2⟩ ⟨1⟩).is_on_curve = .ok true := by
    unfold G1.is_on_curve G1.to_affine
    rw [show (G1.mk ⟨1⟩ ⟨P - 2⟩ ⟨1⟩).z = (⟨1⟩ : Fp) from rfl, inv_one_eq]
    rfl
  exact C6_add_commutes _ _ (by decide) (by decide) (by decide) (by decide) (by decide)
    (by decide) (by decide) hoc1 hoc2
